import Mathlib

/-!
Verification development for the AFQMC random-walk engine (afqmcpy / pauxy).

The development shallowly embeds the core numerical routines of

* `afqmcpy/estimators.py` — the one-particle Green's function `gab`, the
  Hubbard local-energy formula `local_energy`, and the back-propagated
  energy estimator `back_propagated_energy`;
* `pauxy/propagation/continuous.py` — the `Continuous` propagator: its
  constructor-derived configuration, the force-bias clamp loop of
  `two_body_propagator`, the hybrid-energy bound `apply_bound`, and the
  weight/phase update of `propagate_walker_phaseless`.

Machine floating-point numbers are modelled by exact reals `ℝ` and complex
numbers `ℂ`; mutation of the propagator's diagnostic counters is modelled by
explicit state passing (the functions return the updated configuration).
-/

open Matrix

set_option maxHeartbeats 1000000

/-! ### Green's function engine (`afqmcpy/estimators.py`, `gab`)

The source computes `inv_O = scipy.linalg.inv((A.conj().T).dot(B))` and
returns `GAB = B.dot(inv_O.dot(A.conj().T)).T`.  Matrix inversion is embedded
with Mathlib's nonsingular inverse, which agrees with the true inverse
exactly when the determinant of the overlap matrix is a unit. -/

/-- One-particle Green's function of `afqmcpy/estimators.py`:
`gab A B = (B · (Aᴴ·B)⁻¹ · Aᴴ)ᵀ`, with the product associated exactly as in
the source (`B.dot(inv_O.dot(A.conj().T)).T`). -/
noncomputable def gab {m r : ℕ} (A B : Matrix (Fin m) (Fin r) ℂ) :
    Matrix (Fin m) (Fin m) ℂ :=
  (B * ((Aᴴ * B)⁻¹ * Aᴴ))ᵀ

/-- The 1×1 identity matrix over `ℂ`, used as a concrete evaluation point. -/
def oneM : Matrix (Fin 1) (Fin 1) ℂ := 1

/-- C1: for matrices of matching occupation count whose overlap matrix
`S = conj(A)ᵀ·B` is invertible — witnessed by any two-sided inverse
`S_inv` of `S` — the function `gab` returns exactly `(B · S⁻¹ · conj(A)ᵀ)ᵀ`. -/
theorem gab_spec_formula {m r : ℕ} (A B : Matrix (Fin m) (Fin r) ℂ)
    (S_inv : Matrix (Fin r) (Fin r) ℂ)
    (hl : (Aᴴ * B) * S_inv = 1) (_hr : S_inv * (Aᴴ * B) = 1) :
    gab A B = (B * S_inv * Aᴴ)ᵀ := by
  have hinv : (Aᴴ * B)⁻¹ = S_inv := Matrix.inv_eq_right_inv hl
  unfold gab
  rw [hinv, Matrix.mul_assoc]

/-- Witness for C1 at the concrete input `A = B = 1` (`m = r = 1`),
whose overlap matrix is `1` with inverse `1`. -/
theorem gab_spec_formula_witness :
    (oneMᴴ * oneM) * oneM = 1 ∧ oneM * (oneMᴴ * oneM) = 1 ∧
      gab oneM oneM = (oneM * oneM * oneMᴴ)ᵀ :=
  ⟨by simp [oneM], by simp [oneM],
    gab_spec_formula oneM oneM oneM (by simp [oneM]) (by simp [oneM])⟩

/-- C10: whenever the overlap matrix `S = Aᴴ·B` is invertible, `gab A B` is an
idempotent (oblique projector), for every pair of non-orthogonal determinants. -/
theorem gab_idempotent {m r : ℕ} (A B : Matrix (Fin m) (Fin r) ℂ)
    (h : IsUnit (Aᴴ * B).det) :
    gab A B * gab A B = gab A B := by
  have h2 : (Aᴴ * B)⁻¹ * (Aᴴ * B) = 1 := Matrix.nonsing_inv_mul _ h
  have key : B * ((Aᴴ * B)⁻¹ * Aᴴ) * (B * ((Aᴴ * B)⁻¹ * Aᴴ))
      = B * ((Aᴴ * B)⁻¹ * Aᴴ) := by
    calc
      B * ((Aᴴ * B)⁻¹ * Aᴴ) * (B * ((Aᴴ * B)⁻¹ * Aᴴ))
          = B * ((((Aᴴ * B)⁻¹ * (Aᴴ * B)) * (Aᴴ * B)⁻¹) * Aᴴ) := by
            simp only [Matrix.mul_assoc]
      _ = B * ((Aᴴ * B)⁻¹ * Aᴴ) := by rw [h2, Matrix.one_mul]
  unfold gab
  rw [← Matrix.transpose_mul, key]

/-- Witness for C10 at the concrete input `A = B = 1` (`m = r = 1`). -/
theorem gab_idempotent_witness :
    IsUnit (oneMᴴ * oneM).det ∧ gab oneM oneM * gab oneM oneM = gab oneM oneM :=
  ⟨by simp [oneM], gab_idempotent oneM oneM (by simp [oneM])⟩

/-! ### Estimator accumulator (`afqmcpy/estimators.py`)

`local_energy` is the Hubbard local-energy formula:
`ke = numpy.sum(system.T * (G[0] + G[1]))` and
`pe = sum(system.U * G[0][i][i] * G[1][i][i] for i in range(nbasis))`,
returning the triple `(ke + pe, ke, pe)`. -/

/-- Hubbard system parameters used by the estimator: hopping matrix `T`
and on-site interaction strength `U` (both real in the source). -/
structure HubbardSystem (m : ℕ) where
  T : Matrix (Fin m) (Fin m) ℝ
  U : ℝ

/-- Walker as read by the `afqmcpy` estimators: the two spin blocks of the
occupied-orbital matrix `phi` and the real walker weight. -/
structure AWalker (m r : ℕ) where
  phi0 : Matrix (Fin m) (Fin r) ℂ
  phi1 : Matrix (Fin m) (Fin r) ℂ
  weight : ℝ

/-- Local energy `(ke + pe, ke, pe)` of a walker for the Hubbard model
(`local_energy` in `afqmcpy/estimators.py`). -/
noncomputable def local_energy {m : ℕ} (sys : HubbardSystem m)
    (G0 G1 : Matrix (Fin m) (Fin m) ℂ) : ℂ × ℂ × ℂ :=
  let ke : ℂ := ∑ i, ∑ j, (sys.T i j : ℂ) * (G0 i j + G1 i j)
  let pe : ℂ := ∑ i, (sys.U : ℂ) * G0 i i * G1 i i
  (ke + pe, ke, pe)

/-- Back-propagated energy estimator (`back_propagated_energy` in
`afqmcpy/estimators.py`): sum over index-aligned walker triples of the current
walker's weight times the local energy of the Green's function between the
back-propagated and reference-time determinants, normalized by the total
current weight. -/
noncomputable def back_propagated_energy {m r : ℕ} (sys : HubbardSystem m)
    (psi psit psib : List (AWalker m r)) : ℂ × ℂ × ℂ :=
  let denominator : ℝ := (psi.map AWalker.weight).sum
  let estimates : ℂ × ℂ × ℂ :=
    (psi.zip (psit.zip psib)).foldl
      (fun acc z =>
        let gtb0 := gab z.2.2.phi0 z.2.1.phi0
        let gtb1 := gab z.2.2.phi1 z.2.1.phi1
        let e := local_energy sys gtb0 gtb1
        (acc.1 + (z.1.weight : ℂ) * e.1,
         acc.2.1 + (z.1.weight : ℂ) * e.2.1,
         acc.2.2 + (z.1.weight : ℂ) * e.2.2))
      (0, 0, 0)
  (estimates.1 / (denominator : ℂ),
   estimates.2.1 / (denominator : ℂ),
   estimates.2.2 / (denominator : ℂ))

/-- C9: for a single walker of positive weight with `psi = psit = psib`, the
back-propagated energy estimator reduces to the ordinary instantaneous local
energy triple of that determinant — the weight cancels against the
denominator. -/
theorem back_propagated_energy_single {m r : ℕ} (sys : HubbardSystem m)
    (w : AWalker m r) (h : 0 < w.weight) :
    back_propagated_energy sys [w] [w] [w]
      = local_energy sys (gab w.phi0 w.phi0) (gab w.phi1 w.phi1) := by
  have hw : (w.weight : ℂ) ≠ 0 := by
    exact_mod_cast ne_of_gt h
  unfold back_propagated_energy
  simp only [List.map_cons, List.map_nil, List.sum_cons, List.sum_nil, add_zero,
    List.zip_cons_cons, List.zip_nil_right, List.foldl_cons, List.foldl_nil, zero_add]
  refine Prod.ext ?_ (Prod.ext ?_ ?_) <;>
    simp [mul_div_assoc, mul_div_cancel_left₀ _ hw]

/-- Witness for C9: a concrete 1×1 Hubbard system and a unit-weight walker. -/
theorem back_propagated_energy_single_witness :
    (0 : ℝ) < 1 ∧
      back_propagated_energy ⟨1, 2⟩ [⟨oneM, oneM, 1⟩] [⟨oneM, oneM, 1⟩] [⟨oneM, oneM, 1⟩]
        = local_energy ⟨1, 2⟩ (gab oneM oneM) (gab oneM oneM) :=
  ⟨one_pos, back_propagated_energy_single ⟨1, 2⟩ ⟨oneM, oneM, 1⟩ one_pos⟩

/-! ### The orthonormal case of `gab` (claim about `green(A, A)`) -/

/-- Concrete orthonormal basis matrix with basis size 2 and occupation 1:
the first standard basis column. -/
def A0 : Matrix (Fin 2) (Fin 1) ℂ := Matrix.of ![![1], ![0]]

/-- The columns of `A0` are orthonormal: `A0ᴴ * A0 = 1`. -/
lemma A0_orth : A0ᴴ * A0 = 1 := by
  ext i j
  fin_cases i
  fin_cases j
  simp [A0, Matrix.mul_apply, Fin.sum_univ_two, Matrix.conjTranspose_apply,
    Matrix.one_apply]

/-- Inverse of the identity matrix, via its right inverse. -/
lemma matrix_inv_one {k : ℕ} : (1 : Matrix (Fin k) (Fin k) ℂ)⁻¹ = 1 :=
  Matrix.inv_eq_right_inv (Matrix.one_mul 1)

/-- Counterexample to C5 as stated: `A0` has orthonormal columns, yet
`gab A0 A0` is the projector itself, not the complement `1 − A0·A0ᵀ`. -/
theorem gab_complement_counterexample :
    A0ᴴ * A0 = 1 ∧ gab A0 A0 ≠ 1 - A0 * A0ᵀ := by
  refine ⟨A0_orth, fun hcontra => ?_⟩
  have hg : gab A0 A0 = (A0 * A0ᴴ)ᵀ := by
    unfold gab
    rw [A0_orth, matrix_inv_one, Matrix.one_mul]
  have h1 : gab A0 A0 0 0 = 1 := by
    rw [hg]
    show (A0 * A0ᴴ) 0 0 = 1
    rw [Matrix.mul_apply, Fin.sum_univ_one]
    simp [A0, Matrix.conjTranspose_apply]
  have h2 : ((1 : Matrix (Fin 2) (Fin 2) ℂ) - A0 * A0ᵀ) 0 0 = 0 := by
    rw [Matrix.sub_apply, Matrix.mul_apply, Fin.sum_univ_one]
    simp [A0, Matrix.one_apply, Matrix.transpose_apply]
  rw [hcontra, h2] at h1
  exact one_ne_zero h1.symm

/-- C5 (amended): for any `A` with orthonormal columns (`Aᴴ·A = 1`),
`gab A A` equals the idempotent projector `(A·Aᴴ)ᵀ = conj(A)·Aᵀ`
(so `1 − gab A A` is the projector complement), and it is idempotent. -/
theorem gab_orthonormal_projector {m r : ℕ} (A : Matrix (Fin m) (Fin r) ℂ)
    (h : Aᴴ * A = 1) :
    gab A A = (A * Aᴴ)ᵀ ∧ gab A A * gab A A = gab A A := by
  have hg : gab A A = (A * Aᴴ)ᵀ := by
    unfold gab
    rw [h, matrix_inv_one, Matrix.one_mul]
  have key : A * Aᴴ * (A * Aᴴ) = A * Aᴴ := by
    calc
      A * Aᴴ * (A * Aᴴ) = A * ((Aᴴ * A) * Aᴴ) := by
        simp only [Matrix.mul_assoc]
      _ = A * Aᴴ := by rw [h, Matrix.one_mul]
  exact ⟨hg, by rw [hg, ← Matrix.transpose_mul, key]⟩

/-- Witness for the amended C5 at the concrete orthonormal matrix `A0`. -/
theorem gab_orthonormal_projector_witness :
    A0ᴴ * A0 = 1 ∧
      (gab A0 A0 = (A0 * A0ᴴ)ᵀ ∧ gab A0 A0 * gab A0 A0 = gab A0 A0) :=
  ⟨A0_orth, gab_orthonormal_projector A0 A0_orth⟩

/-! ### Continuous propagator (`pauxy/propagation/continuous.py`) -/

/-- Configuration and diagnostic state of the `Continuous` propagator.
The mutable diagnostic counters `nfb_trig` and `nhe_trig` live here and are
updated by explicit state passing. -/
structure PropCfg where
  free_projection : Bool
  force_bias : Bool
  exp_nmax : ℕ
  dt : ℝ
  sqrt_dt : ℝ
  mf_const_fac : ℝ
  ebound : ℝ
  nfb_trig : ℕ
  nhe_trig : ℕ

/-- Constructor of `Continuous` (its `__init__`): force bias is switched off
whenever free projection is requested, `ebound = (2/dt)^(1/2)`,
`mf_const_fac = exp(-dt*Re(mf_core))`, and both diagnostic counters start at
zero.  The external propagator specialization chosen by
`get_continuous_propagator` and its one-body matrices stay outside the
embedded state. -/
noncomputable def continuous_init (free_projection_opt force_bias_opt : Bool)
    (exp_order : ℕ) (dt : ℝ) (mf_core : ℂ) : PropCfg :=
  { free_projection := free_projection_opt
    force_bias := if free_projection_opt then false else force_bias_opt
    exp_nmax := exp_order
    dt := dt
    sqrt_dt := Real.sqrt dt
    mf_const_fac := Real.exp (-dt * mf_core.re)
    ebound := Real.sqrt (2 / dt)
    nfb_trig := 0
    nhe_trig := 0 }

/-- Hybrid-energy bound (`Continuous.apply_bound`): the real part of `ehyb`
is clamped into `[eshift.re − ebound, eshift.re + ebound]`, leaving the
imaginary part untouched and incrementing `nhe_trig` when a clamp fires. -/
noncomputable def apply_bound (P : PropCfg) (ehyb eshift : ℂ) : ℂ × PropCfg :=
  if eshift.re + P.ebound < ehyb.re then
    (⟨eshift.re + P.ebound, ehyb.im⟩, { P with nhe_trig := P.nhe_trig + 1 })
  else if ehyb.re < eshift.re - P.ebound then
    (⟨eshift.re - P.ebound, ehyb.im⟩, { P with nhe_trig := P.nhe_trig + 1 })
  else (ehyb, P)

/-- C7: `apply_bound` on a propagator whose bound is the constructor-derived
`ebound = (2/dt)^(1/2)` returns a value whose real part lies within `ebound`
of `eshift.re` and whose imaginary part is that of `ehyb`; an input already
within the bound passes through unchanged, and `nhe_trig` is incremented
exactly when the value was clamped. -/
theorem apply_bound_spec (P : PropCfg) (ehyb eshift : ℂ)
    (hPe : P.ebound = Real.sqrt (2 / P.dt)) :
    |(apply_bound P ehyb eshift).1.re - eshift.re| ≤ Real.sqrt (2 / P.dt) ∧
    (apply_bound P ehyb eshift).1.im = ehyb.im ∧
    (|ehyb.re - eshift.re| ≤ Real.sqrt (2 / P.dt) →
      (apply_bound P ehyb eshift).1 = ehyb) ∧
    (((apply_bound P ehyb eshift).1 = ehyb ∧
        (apply_bound P ehyb eshift).2.nhe_trig = P.nhe_trig) ∨
      ((apply_bound P ehyb eshift).1 ≠ ehyb ∧
        (apply_bound P ehyb eshift).2.nhe_trig = P.nhe_trig + 1)) := by
  rw [← hPe]
  have hb : (0 : ℝ) ≤ P.ebound := hPe ▸ Real.sqrt_nonneg _
  unfold apply_bound
  split_ifs with h1 h2
  · refine ⟨?_, rfl, ?_, Or.inr ⟨?_, rfl⟩⟩
    · show |eshift.re + P.ebound - eshift.re| ≤ P.ebound
      rw [show eshift.re + P.ebound - eshift.re = P.ebound by ring,
        abs_of_nonneg hb]
    · intro habs
      rw [abs_le] at habs
      exfalso
      linarith [habs.2]
    · intro he
      have hre : eshift.re + P.ebound = ehyb.re := congrArg Complex.re he
      linarith
  · refine ⟨?_, rfl, ?_, Or.inr ⟨?_, rfl⟩⟩
    · show |eshift.re - P.ebound - eshift.re| ≤ P.ebound
      rw [show eshift.re - P.ebound - eshift.re = -P.ebound by ring,
        abs_neg, abs_of_nonneg hb]
    · intro habs
      rw [abs_le] at habs
      exfalso
      linarith [habs.1]
    · intro he
      have hre : eshift.re - P.ebound = ehyb.re := congrArg Complex.re he
      linarith
  · refine ⟨?_, rfl, fun _ => rfl, Or.inl ⟨rfl, rfl⟩⟩
    rw [abs_le]
    constructor <;> linarith

/-- Witness for C7: a concrete clamped input (`dt = 2`, `ehyb = 5 + 3i`,
`eshift = 0`, so `ebound = 1` and the real part exceeds the bound). -/
theorem apply_bound_spec_witness :
    |(apply_bound (continuous_init false false 6 2 0) ⟨5, 3⟩ 0).1.re - (0 : ℂ).re|
        ≤ Real.sqrt (2 / (continuous_init false false 6 2 0).dt) ∧
    (apply_bound (continuous_init false false 6 2 0) ⟨5, 3⟩ 0).1.im = (⟨5, 3⟩ : ℂ).im ∧
    (|(⟨5, 3⟩ : ℂ).re - (0 : ℂ).re|
        ≤ Real.sqrt (2 / (continuous_init false false 6 2 0).dt) →
      (apply_bound (continuous_init false false 6 2 0) ⟨5, 3⟩ 0).1 = ⟨5, 3⟩) ∧
    (((apply_bound (continuous_init false false 6 2 0) ⟨5, 3⟩ 0).1 = ⟨5, 3⟩ ∧
        (apply_bound (continuous_init false false 6 2 0) ⟨5, 3⟩ 0).2.nhe_trig
          = (continuous_init false false 6 2 0).nhe_trig) ∨
      ((apply_bound (continuous_init false false 6 2 0) ⟨5, 3⟩ 0).1 ≠ ⟨5, 3⟩ ∧
        (apply_bound (continuous_init false false 6 2 0) ⟨5, 3⟩ 0).2.nhe_trig
          = (continuous_init false false 6 2 0).nhe_trig + 1)) :=
  apply_bound_spec (continuous_init false false 6 2 0) ⟨5, 3⟩ 0 rfl

/-! ### Force-bias clamp loop of `Continuous.two_body_propagator`

The source iterates `for i in range(system.nfields)` and, whenever
`numpy.absolute(xbar[i]) > 1.0`, increments `self.nfb_trig` and rescales
`xbar[i] /= numpy.absolute(xbar[i])`.  The loop is embedded as structural
recursion over the list of field indices, threading the bias vector and the
counter. -/

/-- One pass of the force-bias clamp loop over the given indices. -/
noncomputable def fbLoop {n : ℕ} : (Fin n → ℂ) → ℕ → List (Fin n) → (Fin n → ℂ) × ℕ
  | x, c, [] => (x, c)
  | x, c, i :: t =>
    if 1 < Complex.abs (x i) then
      fbLoop (Function.update x i (x i / (Complex.abs (x i) : ℂ))) (c + 1) t
    else
      fbLoop x c t

/-- Number of components of `x` along `l` whose magnitude exceeds one. -/
noncomputable def trigCount {n : ℕ} (x : Fin n → ℂ) : List (Fin n) → ℕ
  | [] => 0
  | i :: t => (if 1 < Complex.abs (x i) then 1 else 0) + trigCount x t

/-- `trigCount` only looks at the values of `x` along the list. -/
lemma trigCount_congr {n : ℕ} (x y : Fin n → ℂ) :
    ∀ l : List (Fin n), (∀ j ∈ l, x j = y j) → trigCount x l = trigCount y l := by
  intro l
  induction l with
  | nil => intro _; rfl
  | cons i t ih =>
    intro h
    unfold trigCount
    rw [h i (List.mem_cons_self i t), ih (fun j hj => h j (List.mem_cons_of_mem _ hj))]

/-- The clamp loop increments the counter once per component whose magnitude
exceeds one (not once per call). -/
lemma fbLoop_snd {n : ℕ} :
    ∀ (l : List (Fin n)), l.Nodup → ∀ (x : Fin n → ℂ) (c : ℕ),
      (fbLoop x c l).2 = c + trigCount x l := by
  intro l
  induction l with
  | nil =>
    intro _ x c
    simp [fbLoop, trigCount]
  | cons i t ih =>
    intro hnd x c
    have hi : i ∉ t := (List.nodup_cons.mp hnd).1
    have ht : t.Nodup := (List.nodup_cons.mp hnd).2
    by_cases habs : 1 < Complex.abs (x i)
    · unfold fbLoop trigCount
      rw [if_pos habs, if_pos habs, ih ht _ (c + 1),
        trigCount_congr _ x t
          (fun j hj => Function.update_noteq (fun he => hi (by rw [← he]; exact hj)) _ _)]
      omega
    · unfold fbLoop trigCount
      rw [if_neg habs, if_neg habs, ih ht x c, zero_add]

/-- The clamp loop rescales exactly the oversized components, each by its own
magnitude, and leaves the others untouched. -/
lemma fbLoop_fst {n : ℕ} :
    ∀ (l : List (Fin n)), l.Nodup → ∀ (x : Fin n → ℂ) (c : ℕ) (j : Fin n),
      (fbLoop x c l).1 j =
        if j ∈ l ∧ 1 < Complex.abs (x j) then x j / (Complex.abs (x j) : ℂ)
        else x j := by
  intro l
  induction l with
  | nil =>
    intro _ x c j
    simp [fbLoop]
  | cons i t ih =>
    intro hnd x c j
    have hi : i ∉ t := (List.nodup_cons.mp hnd).1
    have ht : t.Nodup := (List.nodup_cons.mp hnd).2
    by_cases habs : 1 < Complex.abs (x i)
    · unfold fbLoop
      rw [if_pos habs, ih ht _ (c + 1) j]
      by_cases hji : j = i
      · subst hji
        rw [if_neg (fun hc => hi hc.1), Function.update_same,
          if_pos ⟨List.mem_cons_self j t, habs⟩]
      · rw [Function.update_noteq hji]
        by_cases habj : 1 < Complex.abs (x j)
        · by_cases hjt : j ∈ t
          · rw [if_pos ⟨hjt, habj⟩, if_pos ⟨List.mem_cons_of_mem i hjt, habj⟩]
          · rw [if_neg (fun hc => hjt hc.1),
              if_neg (fun hc => (List.mem_cons.mp hc.1).elim hji hjt)]
        · rw [if_neg (fun hc => habj hc.2), if_neg (fun hc => habj hc.2)]
    · unfold fbLoop
      rw [if_neg habs, ih ht x c j]
      by_cases hji : j = i
      · subst hji
        rw [if_neg (fun hc => habs hc.2), if_neg (fun hc => habs hc.2)]
      · by_cases habj : 1 < Complex.abs (x j)
        · by_cases hjt : j ∈ t
          · rw [if_pos ⟨hjt, habj⟩, if_pos ⟨List.mem_cons_of_mem i hjt, habj⟩]
          · rw [if_neg (fun hc => hjt hc.1),
              if_neg (fun hc => (List.mem_cons.mp hc.1).elim hji hjt)]
        · rw [if_neg (fun hc => habj hc.2), if_neg (fun hc => habj hc.2)]

/-- Two-body propagator of `Continuous`, restricted to its scalar effects.
The normal samples `xi`, the trial force bias `rawBias` (the output of the
external `construct_force_bias`) and the mean-field shift `mf_shift` enter as
parameters.  The bias is zeroed when force bias is disabled, the clamp loop
rescales oversized components while counting them in `nfb_trig`, and the
constant factors `cmf` and `cfb` are returned together with the shifted field
and the updated propagator state.  Applying `exp(VHS)` to the walker orbitals
mutates only the external matrix `walker.phi` and is not part of the returned
scalars. -/
noncomputable def two_body_propagator {n : ℕ} (P : PropCfg)
    (xi : Fin n → ℝ) (rawBias mf_shift : Fin n → ℂ) :
    ℂ × ℂ × (Fin n → ℂ) × PropCfg :=
  let xbar0 : Fin n → ℂ := if P.force_bias then rawBias else fun _ => 0
  let clamped := fbLoop xbar0 P.nfb_trig (List.finRange n)
  let xbar := clamped.1
  let xshifted : Fin n → ℂ := fun i => (xi i : ℂ) - xbar i
  let cmf : ℂ := -(P.sqrt_dt : ℂ) * ∑ i, xshifted i * mf_shift i
  let cfb : ℂ := (∑ i, (xi i : ℂ) * xbar i) - (1 / 2) * ∑ i, xbar i * xbar i
  (cmf, cfb, xshifted, { P with nfb_trig := clamped.2 })

/-- Counterexample to C3 as stated: with force bias on and raw bias `(2, 2)`
(both components oversized), one call increments `nfb_trig` from `0` to `2` —
once per clamped component, not once per triggering call. -/
theorem two_body_nfb_counterexample :
    (1 < Complex.abs ((![2, 2] : Fin 2 → ℂ) 0)) ∧
    (1 < Complex.abs ((![2, 2] : Fin 2 → ℂ) 1)) ∧
    (two_body_propagator (continuous_init false true 6 1 0)
        (fun _ => 0) ![2, 2] (fun _ => 0)).2.2.2.nfb_trig = 2 ∧
    (2 : ℕ) ≠ 1 := by
  have h0 : ((![2, 2] : Fin 2 → ℂ) 0) = 2 := rfl
  have h1 : ((![2, 2] : Fin 2 → ℂ) 1) = 2 := rfl
  have habs : (1 : ℝ) < Complex.abs 2 := by
    rw [Complex.abs_two]
    norm_num
  refine ⟨by rw [h0]; exact habs, by rw [h1]; exact habs, ?_, by norm_num⟩
  show (fbLoop (if (continuous_init false true 6 1 0).force_bias then ![2, 2]
      else fun _ => 0) (continuous_init false true 6 1 0).nfb_trig
      (List.finRange 2)).2 = 2
  have hfb : (continuous_init false true 6 1 0).force_bias = true := rfl
  have hnfb : (continuous_init false true 6 1 0).nfb_trig = 0 := rfl
  rw [hfb, if_pos rfl, hnfb]
  rw [fbLoop_snd (List.finRange 2) (List.nodup_finRange 2) ![2, 2] 0]
  have hfr : List.finRange 2 = [0, 1] := rfl
  rw [hfr]
  show 0 + ((if 1 < Complex.abs (![2, 2] 0) then 1 else 0) +
      ((if 1 < Complex.abs (![2, 2] 1) then 1 else 0) + 0)) = 2
  rw [h0, h1, if_pos habs]

/-- C3 (amended): with force bias enabled, every bias component of magnitude
above one is rescaled to unit magnitude with its complex phase preserved,
components within the bound are untouched, and `nfb_trig` is incremented by
the number of triggering components of the call (hence at least once when any
component triggers, but not exactly once per call). -/
theorem two_body_force_bias_clamp {n : ℕ} (P : PropCfg) (xi : Fin n → ℝ)
    (rawBias mf_shift : Fin n → ℂ) (hfb : P.force_bias = true) :
    (∀ i, 1 < Complex.abs (rawBias i) →
        (xi i : ℂ) - (two_body_propagator P xi rawBias mf_shift).2.2.1 i
            = rawBias i / (Complex.abs (rawBias i) : ℂ) ∧
        Complex.abs ((xi i : ℂ) - (two_body_propagator P xi rawBias mf_shift).2.2.1 i) = 1 ∧
        Complex.arg ((xi i : ℂ) - (two_body_propagator P xi rawBias mf_shift).2.2.1 i)
            = Complex.arg (rawBias i)) ∧
    (∀ i, ¬ 1 < Complex.abs (rawBias i) →
        (xi i : ℂ) - (two_body_propagator P xi rawBias mf_shift).2.2.1 i = rawBias i) ∧
    (two_body_propagator P xi rawBias mf_shift).2.2.2.nfb_trig
        = P.nfb_trig + trigCount rawBias (List.finRange n) := by
  have hxbar : ∀ j, (fbLoop (if P.force_bias then rawBias else fun _ => 0)
      P.nfb_trig (List.finRange n)).1 j =
      if j ∈ List.finRange n ∧ 1 < Complex.abs (rawBias j)
        then rawBias j / (Complex.abs (rawBias j) : ℂ) else rawBias j := by
    intro j
    rw [hfb, if_pos rfl]
    exact fbLoop_fst (List.finRange n) (List.nodup_finRange n) rawBias P.nfb_trig j
  have hshift : ∀ i, (xi i : ℂ) - (two_body_propagator P xi rawBias mf_shift).2.2.1 i
      = (fbLoop (if P.force_bias then rawBias else fun _ => 0)
          P.nfb_trig (List.finRange n)).1 i := by
    intro i
    show (xi i : ℂ) - ((xi i : ℂ) - _) = _
    ring
  refine ⟨?_, ?_, ?_⟩
  · intro i hi
    have hval : (xi i : ℂ) - (two_body_propagator P xi rawBias mf_shift).2.2.1 i
        = rawBias i / (Complex.abs (rawBias i) : ℂ) := by
      rw [hshift i, hxbar i, if_pos ⟨List.mem_finRange i, hi⟩]
    have habs0 : (0 : ℝ) < Complex.abs (rawBias i) := lt_trans one_pos hi
    refine ⟨hval, ?_, ?_⟩
    · rw [hval, map_div₀, Complex.abs_ofReal, abs_of_pos habs0, div_self (ne_of_gt habs0)]
    · rw [hval, div_eq_inv_mul, ← Complex.ofReal_inv]
      exact Complex.arg_real_mul _ (inv_pos.mpr habs0)
  · intro i hi
    rw [hshift i, hxbar i, if_neg (fun hc => hi hc.2)]
  · show ({ P with nfb_trig := (fbLoop (if P.force_bias then rawBias
        else fun _ => 0) P.nfb_trig (List.finRange n)).2 } : PropCfg).nfb_trig
        = P.nfb_trig + trigCount rawBias (List.finRange n)
    rw [hfb, if_pos rfl]
    exact fbLoop_snd (List.finRange n) (List.nodup_finRange n) rawBias P.nfb_trig

/-- Witness for the amended C3: a propagator with force bias on, one field
component of raw bias `2`; the counter advances by the count of oversized
components. -/
theorem two_body_force_bias_clamp_witness :
    (continuous_init false true 6 1 0).force_bias = true ∧
    (two_body_propagator (continuous_init false true 6 1 0) (fun _ : Fin 1 => 0)
        (fun _ => 2) (fun _ => 0)).2.2.2.nfb_trig
      = (continuous_init false true 6 1 0).nfb_trig
          + trigCount (fun _ : Fin 1 => (2 : ℂ)) (List.finRange 1) :=
  ⟨rfl, (two_body_force_bias_clamp (continuous_init false true 6 1 0)
      (fun _ => 0) (fun _ => 2) (fun _ => 0) rfl).2.2⟩

/-- One propagation step's effect on the propagator state: the configuration
returned by `two_body_propagator` for that step's sampled field and raw bias. -/
noncomputable def two_body_cfg_step {n : ℕ} (mf_shift : Fin n → ℂ)
    (P : PropCfg) (s : (Fin n → ℝ) × (Fin n → ℂ)) : PropCfg :=
  (two_body_propagator P s.1 s.2 mf_shift).2.2.2

/-- No component of the zero bias vector ever exceeds unit magnitude. -/
lemma trigCount_zero {n : ℕ} :
    ∀ l : List (Fin n), trigCount (fun _ => (0 : ℂ)) l = 0 := by
  intro l
  induction l with
  | nil => rfl
  | cons i t ih =>
    have hne : ¬ (1 : ℝ) < Complex.abs ((fun _ : Fin n => (0 : ℂ)) i) := by
      show ¬ (1 : ℝ) < Complex.abs 0
      rw [map_zero]
      norm_num
    unfold trigCount
    rw [ih, if_neg hne]

/-- With force bias disabled a two-body step preserves the clamp counter and
the force-bias flag. -/
lemma two_body_cfg_step_free {n : ℕ} (mf_shift : Fin n → ℂ) (P : PropCfg)
    (s : (Fin n → ℝ) × (Fin n → ℂ)) (hfb : P.force_bias = false) :
    (two_body_cfg_step mf_shift P s).force_bias = false ∧
    (two_body_cfg_step mf_shift P s).nfb_trig = P.nfb_trig := by
  constructor
  · exact hfb
  · show (fbLoop (if P.force_bias then s.2 else fun _ => 0) P.nfb_trig
        (List.finRange n)).2 = P.nfb_trig
    rw [hfb, if_neg Bool.false_ne_true,
      fbLoop_snd (List.finRange n) (List.nodup_finRange n) _ P.nfb_trig,
      trigCount_zero, add_zero]

/-- Iterated two-body steps with force bias disabled never move `nfb_trig`. -/
lemma foldl_free_nfb {n : ℕ} (mf_shift : Fin n → ℂ) :
    ∀ (steps : List ((Fin n → ℝ) × (Fin n → ℂ))) (P : PropCfg),
      P.force_bias = false →
      (steps.foldl (two_body_cfg_step mf_shift) P).force_bias = false ∧
      (steps.foldl (two_body_cfg_step mf_shift) P).nfb_trig = P.nfb_trig := by
  intro steps
  induction steps with
  | nil =>
    intro P h
    exact ⟨h, rfl⟩
  | cons s t ih =>
    intro P h
    have hs := two_body_cfg_step_free mf_shift P s h
    rw [List.foldl_cons]
    rcases ih (two_body_cfg_step mf_shift P s) hs.1 with ⟨h1, h2⟩
    exact ⟨h1, by rw [h2, hs.2]⟩

/-- C8: a propagator constructed in free-projection mode has force bias
disabled regardless of the `force_bias` option, and across any number of
two-body propagation steps the force-bias clamp counter `nfb_trig` stays
exactly zero. -/
theorem free_projection_nfb_zero {n : ℕ} (force_bias_opt : Bool) (eo : ℕ)
    (dt : ℝ) (mc : ℂ) (mf_shift : Fin n → ℂ)
    (steps : List ((Fin n → ℝ) × (Fin n → ℂ))) :
    (continuous_init true force_bias_opt eo dt mc).force_bias = false ∧
    (steps.foldl (two_body_cfg_step mf_shift)
        (continuous_init true force_bias_opt eo dt mc)).nfb_trig = 0 := by
  refine ⟨rfl, ?_⟩
  rw [(foldl_free_nfb mf_shift steps _ rfl).2]
  exact rfl

/-! ### Phaseless walker update (`Continuous.propagate_walker_phaseless`) -/

/-- Walker state read and written by the pauxy `Continuous` propagator:
weight, phase, overlap `ot` with the trial wavefunction, and the cached
hybrid energy.  The orbital matrix `phi` is mutated only by the external
one-body and `exp(VHS)` applications, which never touch these scalars. -/
structure PWalker where
  weight : ℝ
  phase : ℂ
  ot : ℂ
  hybrid_energy : ℂ

/-- Phaseless propagation step restricted to the walker scalars it updates.
The constant factors `cmf` and `cfb` are the ones returned by
`two_body_propagator`, and `ot_new` is the overlap `walker.calc_otrial(trial)`
recomputed after the orbital update (external linear algebra).  The flag
`magn_isinf` stands for `math.isinf(magn)`, the IEEE classification of the
magnitude of the importance function, which has no counterpart on exact
reals; both branches of the source conditional are embedded.  The recording
of the shifted field into `walker.field_configs` mutates an external buffer
and no walker scalar. -/
noncomputable def propagate_walker_phaseless (P : PropCfg) (w : PWalker)
    (cmf cfb ot_new eshift : ℂ) (magn_isinf : Bool) : PWalker × PropCfg :=
  let ovlp_ratio := ot_new / w.ot
  let hybrid_energy0 := -(Complex.log ovlp_ratio + cfb + cmf) / (P.dt : ℂ)
  let hb := apply_bound P hybrid_energy0 eshift
  let importance_function :=
    (P.mf_const_fac : ℂ) *
      Complex.exp (-(P.dt : ℂ) * ((1 / 2) * (hb.1 + w.hybrid_energy) - eshift))
  let magn := Complex.abs importance_function
  if magn_isinf = false then
    let dtheta := (-(P.dt : ℂ) * hb.1 - cfb).im
    let cosine_fac := max 0 (Real.cos dtheta)
    ({ w with weight := w.weight * (magn * cosine_fac),
              ot := ot_new,
              hybrid_energy := hb.1 }, hb.2)
  else
    ({ w with weight := 0,
              ot := ot_new,
              hybrid_energy := hb.1 }, hb.2)

/-- C4: a phaseless step maps a walker with nonnegative weight and
unit-modulus phase to a walker with nonnegative weight and unit-modulus
phase: the step never touches the phase and multiplies the weight by the
nonnegative factor `|importance| * max(0, cos dtheta)` (or zeroes it). -/
theorem phaseless_weight_phase_invariant (P : PropCfg) (w : PWalker)
    (cmf cfb ot_new eshift : ℂ) (magn_isinf : Bool)
    (hw : 0 ≤ w.weight) (hp : Complex.abs w.phase = 1) :
    0 ≤ (propagate_walker_phaseless P w cmf cfb ot_new eshift magn_isinf).1.weight ∧
    Complex.abs
      (propagate_walker_phaseless P w cmf cfb ot_new eshift magn_isinf).1.phase = 1 := by
  unfold propagate_walker_phaseless
  by_cases hinf : magn_isinf = false
  · rw [if_pos hinf]
    refine ⟨?_, hp⟩
    exact mul_nonneg hw (mul_nonneg (AbsoluteValue.nonneg _ _) (le_max_left 0 _))
  · rw [if_neg hinf]
    exact ⟨le_refl 0, hp⟩

/-- Witness for C4: a concrete unit-weight, unit-phase walker through one
finite-branch phaseless step. -/
theorem phaseless_weight_phase_invariant_witness :
    (0 : ℝ) ≤ (⟨1, 1, 1, 0⟩ : PWalker).weight ∧
    Complex.abs (⟨1, 1, 1, 0⟩ : PWalker).phase = 1 ∧
    (0 ≤ (propagate_walker_phaseless (continuous_init false true 6 1 0)
        ⟨1, 1, 1, 0⟩ 0 0 1 0 false).1.weight ∧
      Complex.abs (propagate_walker_phaseless (continuous_init false true 6 1 0)
        ⟨1, 1, 1, 0⟩ 0 0 1 0 false).1.phase = 1) :=
  ⟨by norm_num, by simp,
    phaseless_weight_phase_invariant (continuous_init false true 6 1 0)
      ⟨1, 1, 1, 0⟩ 0 0 1 0 false (by norm_num) (by simp)⟩
